import Mathlib

/-!
Shallow embedding of the date-classification core of `src/main.rs` of
rust-classfy: the functions `get_fy` (token extraction and length
dispatch), `get_fy_fy_year_only`, `get_fy_full_date`,
`process_month_and_year` and `get_month_offset`, together with proofs
of the specification claims about them.

Modelling conventions:
* a token (Rust `&str`) is a `List Char`;
* Rust `str::len` is the UTF-8 byte length `utf8Len`;
* Rust byte slicing `&s[a..b]` is `byteSlice s a b`, which is `none`
  exactly when Rust would panic (index out of bounds or not on a
  character boundary); a `none` slice makes the surrounding function
  return `RResult.crash`, the image of a Rust panic;
* Rust `str::parse::<u16>` / `str::parse::<u8>` are `rustParseUInt`
  with the type's maximum value (65535 / 255) as first argument: an
  optional leading '+', then ASCII decimal digits, failing on an empty
  digit string, any non-digit, or overflow past the maximum;
* the `u16` addition `year + offset as u16` carries its wrap-around
  `% 65536`;
* the distinct error strings of the source are mapped to the error
  taxonomy of the specification (`RErr`).
-/

/-- UTF-8 byte length of a list of characters, as Rust `str::len`. -/
def utf8Len : List Char → Nat
  | [] => 0
  | c :: cs => c.utf8Size + utf8Len cs

/-- Drop exactly `n` UTF-8 bytes from the front; `none` if `n` is not a
character boundary of the list or exceeds its byte length. -/
def dropBytes : List Char → Nat → Option (List Char)
  | cs, 0 => some cs
  | [], _ + 1 => none
  | c :: cs, n + 1 =>
    if c.utf8Size ≤ n + 1 then dropBytes cs (n + 1 - c.utf8Size) else none

/-- Take exactly `n` UTF-8 bytes from the front; `none` if `n` is not a
character boundary of the list or exceeds its byte length. -/
def takeBytes : List Char → Nat → Option (List Char)
  | _, 0 => some []
  | [], _ + 1 => none
  | c :: cs, n + 1 =>
    if c.utf8Size ≤ n + 1 then (takeBytes cs (n + 1 - c.utf8Size)).map (c :: ·)
    else none

/-- Rust byte slicing `&s[a..b]`: `none` exactly when Rust panics
(`a > b`, an index beyond the end, or an index inside a multi-byte
character). -/
def byteSlice (cs : List Char) (a b : Nat) : Option (List Char) :=
  if a ≤ b then (dropBytes cs a).bind (fun r => takeBytes r (b - a)) else none

/-- `char::to_digit(10)`: the value of an ASCII decimal digit
('0' is code point 48, '9' is 57; no other character is a radix-10
digit). -/
def asciiDigit (c : Char) : Option Nat :=
  if 48 ≤ c.toNat ∧ c.toNat ≤ 57 then some (c.toNat - 48) else none

/-- The digit loop of Rust `from_str_radix` at radix 10 over an unsigned
type with maximum value `max`: accumulate digits, failing on a non-digit
or on overflow past `max` (`checked_mul`/`checked_add`). -/
def parseDigits (max : Nat) : List Char → Nat → Option Nat
  | [], acc => some acc
  | c :: cs, acc =>
    match asciiDigit c with
    | none => none
    | some d => if acc * 10 + d ≤ max then parseDigits max cs (acc * 10 + d) else none

/-- Rust `str::parse` for an unsigned integer type with maximum value
`max`: empty input fails, one optional leading '+' is stripped (a bare
"+" fails), then the digit loop runs. -/
def rustParseUInt (max : Nat) : List Char → Option Nat
  | [] => none
  | c :: cs =>
    if c = '+' then (if cs = [] then none else parseDigits max cs 0)
    else parseDigits max (c :: cs) 0

/-- The error taxonomy of the specification; each constructor is the
class the spec assigns to the corresponding error string of the source. -/
inductive RErr where
  /-- "Incorrect file name format": the stem produced no token. -/
  | noToken
  /-- "File name does not end with date": token length not 6, 7 or 9. -/
  | unrecognizedFormat
  /-- "Date is not an FY" / "Could not parse year" in `get_fy_fy_year_only`. -/
  | invalidFormat
  /-- "Could not parse year" in `process_month_and_year`. -/
  | invalidYear
  /-- "Could not parse day of month" in `get_fy_full_date`. -/
  | invalidDay
  /-- "Month not recognised" in `get_month_offset`. -/
  | unknownMonth
deriving DecidableEq

/-- Outcome of the resolver: a financial year, a classified error, or a
Rust panic (`crash`). -/
inductive RResult where
  | ok (fy : Nat)
  | err (e : RErr)
  | crash
deriving DecidableEq

/-- `get_month_offset` of `src/main.rs`: the twelve uppercase month
codes mapped to their financial-year offset; `none` is the
`Month not recognised` error. -/
def get_month_offset (m : List Char) : Option Nat :=
  if m = ['J', 'A', 'N'] then some 0
  else if m = ['F', 'E', 'B'] then some 0
  else if m = ['M', 'A', 'R'] then some 0
  else if m = ['A', 'P', 'R'] then some 0
  else if m = ['M', 'A', 'Y'] then some 0
  else if m = ['J', 'U', 'N'] then some 0
  else if m = ['J', 'U', 'L'] then some 1
  else if m = ['A', 'U', 'G'] then some 1
  else if m = ['S', 'E', 'P'] then some 1
  else if m = ['O', 'C', 'T'] then some 1
  else if m = ['N', 'O', 'V'] then some 1
  else if m = ['D', 'E', 'C'] then some 1
  else none

/-- `get_fy_fy_year_only` of `src/main.rs`: `date[4..6]` must equal
"FY", then `date[0..4]` is parsed as a `u16`. -/
def get_fy_fy_year_only (date : List Char) : RResult :=
  match byteSlice date 4 6 with
  | none => .crash
  | some suf =>
    if suf = ['F', 'Y'] then
      match byteSlice date 0 4 with
      | none => .crash
      | some pre =>
        match rustParseUInt 65535 pre with
        | some year => .ok year
        | none => .err .invalidFormat
    else .err .invalidFormat

/-- `process_month_and_year` of `src/main.rs`: `date[0..3]` is looked up
in the month table, `date[3..7]` is parsed as a `u16`, and the offset is
added in `u16` arithmetic. -/
def process_month_and_year (date : List Char) : RResult :=
  match byteSlice date 0 3 with
  | none => .crash
  | some m =>
    match get_month_offset m with
    | none => .err .unknownMonth
    | some off =>
      match byteSlice date 3 7 with
      | none => .crash
      | some ys =>
        match rustParseUInt 65535 ys with
        | some year => .ok ((year + off) % 65536)
        | none => .err .invalidYear

/-- `get_fy_full_date` of `src/main.rs`: `date[0..2]` is parsed as a
`u8` (the day, discarded), then `date[2..9]` is delegated to
`process_month_and_year`. -/
def get_fy_full_date (date : List Char) : RResult :=
  match byteSlice date 0 2 with
  | none => .crash
  | some d =>
    match rustParseUInt 255 d with
    | some _ =>
      match byteSlice date 2 9 with
      | none => .crash
      | some rest => process_month_and_year rest
    | none => .err .invalidDay

/-- The length dispatch of `get_fy` of `src/main.rs`
(`match candidate_name.len()`), applied to an already-extracted token. -/
def resolve (tok : List Char) : RResult :=
  if utf8Len tok = 6 then get_fy_fy_year_only tok
  else if utf8Len tok = 7 then process_month_and_year tok
  else if utf8Len tok = 9 then get_fy_full_date tok
  else .err .unrecognizedFormat

/-- Rust `str::split('_')` on a list of characters: the pieces between
underscores, always at least one piece. -/
def splitUnderscore : List Char → List (List Char)
  | [] => [[]]
  | c :: rest =>
    if c = '_' then [] :: splitUnderscore rest
    else
      match splitUnderscore rest with
      | [] => [[c]]
      | p :: ps => (c :: p) :: ps

/-- Rust `str::split_terminator('_')`: as `split`, but the final piece
is omitted when it is empty. -/
def split_terminator (s : List Char) : List (List Char) :=
  if (splitUnderscore s).getLast? = some [] then (splitUnderscore s).dropLast
  else splitUnderscore s

/-- The token extraction of `get_fy` of `src/main.rs`:
`name_string.split_terminator('_').last()`. -/
def extract (stem : List Char) : Option (List Char) :=
  (split_terminator stem).getLast?

/-- `get_fy` of `src/main.rs` from the point where the stem string is in
hand: extract the candidate token (`None` is the
"Incorrect file name format" error, classed `noToken` by the spec) and
dispatch on its length. -/
def get_fy_from_stem (stem : List Char) : RResult :=
  match extract stem with
  | none => .err .noToken
  | some tok => resolve tok

/-- The six month codes the claims place in the first half of the
calendar year (offset 0). -/
def monthsFirstHalf : List (List Char) :=
  [['J', 'A', 'N'], ['F', 'E', 'B'], ['M', 'A', 'R'],
   ['A', 'P', 'R'], ['M', 'A', 'Y'], ['J', 'U', 'N']]

/-- The six month codes the claims place in the second half of the
calendar year (offset 1). -/
def monthsSecondHalf : List (List Char) :=
  [['J', 'U', 'L'], ['A', 'U', 'G'], ['S', 'E', 'P'],
   ['O', 'C', 'T'], ['N', 'O', 'V'], ['D', 'E', 'C']]

/-- The token as the spec's words describe it: the last non-empty
segment produced by splitting the stem on underscores. -/
def lastNonEmptySeg (stem : List Char) : Option (List Char) :=
  ((splitUnderscore stem).filter (fun p => !p.isEmpty)).getLast?

/-- Test that a character is not the underscore separator. -/
def notUnderscore (c : Char) : Bool := c ≠ '_'

/-- The maximal underscore-free suffix of a list of characters. -/
def afterLast (s : List Char) : List Char :=
  (s.reverse.takeWhile notUnderscore).reverse

/-- The token `split_terminator('_').last()` actually produces: one
trailing underscore (if any) is ignored, and the token is the suffix
after the last remaining underscore — possibly the empty string. -/
def specToken (s : List Char) : List Char :=
  afterLast (if s.getLast? = some '_' then s.dropLast else s)

/-! ### Byte-length and slicing lemmas -/

theorem utf8Len_append (l r : List Char) :
    utf8Len (l ++ r) = utf8Len l + utf8Len r := by
  induction l with
  | nil => simp [utf8Len]
  | cons c cs ih => simp [utf8Len, ih, Nat.add_assoc]

theorem length_le_utf8Len (cs : List Char) : cs.length ≤ utf8Len cs := by
  induction cs with
  | nil => simp [utf8Len]
  | cons c cs ih =>
    have hc := c.utf8Size_pos
    simp only [List.length_cons, utf8Len]
    omega

theorem dropBytes_append (l r : List Char) :
    dropBytes (l ++ r) (utf8Len l) = some r := by
  induction l with
  | nil => simp [utf8Len, dropBytes]
  | cons c cs ih =>
    have hc := c.utf8Size_pos
    obtain ⟨k, hk⟩ : ∃ k, c.utf8Size + utf8Len cs = k + 1 :=
      ⟨c.utf8Size + utf8Len cs - 1, by omega⟩
    simp only [List.cons_append, utf8Len, hk, dropBytes]
    have h1 : c.utf8Size ≤ k + 1 := by omega
    have h2 : k + 1 - c.utf8Size = utf8Len cs := by omega
    rw [if_pos h1, h2]
    exact ih

theorem takeBytes_append (l r : List Char) :
    takeBytes (l ++ r) (utf8Len l) = some l := by
  induction l with
  | nil => simp [utf8Len, takeBytes]
  | cons c cs ih =>
    have hc := c.utf8Size_pos
    obtain ⟨k, hk⟩ : ∃ k, c.utf8Size + utf8Len cs = k + 1 :=
      ⟨c.utf8Size + utf8Len cs - 1, by omega⟩
    simp only [List.cons_append, utf8Len, hk, takeBytes]
    have h1 : c.utf8Size ≤ k + 1 := by omega
    have h2 : k + 1 - c.utf8Size = utf8Len cs := by omega
    rw [if_pos h1, h2, ih]
    rfl

theorem takeBytes_self (l : List Char) : takeBytes l (utf8Len l) = some l := by
  have h := takeBytes_append l []
  simpa using h

theorem utf8Len_of_takeBytes :
    ∀ (cs : List Char) (n : Nat) (r : List Char),
      takeBytes cs n = some r → utf8Len r = n := by
  intro cs
  induction cs with
  | nil =>
    intro n r h
    cases n with
    | zero =>
      simp only [takeBytes, Option.some.injEq] at h
      subst h; rfl
    | succ k => simp [takeBytes] at h
  | cons c cs ih =>
    intro n r h
    cases n with
    | zero =>
      simp only [takeBytes, Option.some.injEq] at h
      subst h; rfl
    | succ k =>
      simp only [takeBytes] at h
      by_cases hsz : c.utf8Size ≤ k + 1
      · rw [if_pos hsz] at h
        cases htb : takeBytes cs (k + 1 - c.utf8Size) with
        | none => rw [htb] at h; simp at h
        | some r' =>
          rw [htb] at h
          simp only [Option.map_some', Option.some.injEq] at h
          subst h
          have := ih (k + 1 - c.utf8Size) r' htb
          simp only [utf8Len, this]
          omega
      · rw [if_neg hsz] at h; cases h

theorem byteSlice_zero (cs : List Char) (b : Nat) :
    byteSlice cs 0 b = takeBytes cs b := by
  simp [byteSlice, dropBytes]

theorem byteSlice_append_take (l r : List Char) (a b : Nat)
    (ha : utf8Len l = a) (hab : a ≤ b) :
    byteSlice (l ++ r) a b = takeBytes r (b - a) := by
  subst ha
  simp [byteSlice, hab, dropBytes_append]

theorem utf8Len_of_byteSlice (cs : List Char) (a b : Nat) (r : List Char)
    (h : byteSlice cs a b = some r) : utf8Len r = b - a := by
  unfold byteSlice at h
  split_ifs at h
  · cases hd : dropBytes cs a with
    | none => rw [hd] at h; simp at h
    | some cs' =>
      rw [hd] at h
      simp only [Option.some_bind] at h
      exact utf8Len_of_takeBytes cs' (b - a) r h

/-! ### Integer-parsing lemmas -/

theorem asciiDigit_le_nine (c : Char) (d : Nat) (h : asciiDigit c = some d) :
    d ≤ 9 := by
  unfold asciiDigit at h
  split_ifs at h with hr
  simp only [Option.some.injEq] at h
  omega

theorem parseDigits_lt (max : Nat) :
    ∀ (ds : List Char) (acc v : Nat),
      parseDigits max ds acc = some v → v < (acc + 1) * 10 ^ ds.length := by
  intro ds
  induction ds with
  | nil =>
    intro acc v h
    simp only [parseDigits, Option.some.injEq] at h
    subst h
    simp
  | cons c cs ih =>
    intro acc v h
    simp only [parseDigits] at h
    split at h
    · cases h
    · rename_i d hd
      split_ifs at h with hle
      have hv := ih (acc * 10 + d) v h
      have hd9 := asciiDigit_le_nine c d hd
      have hstep : (acc * 10 + d + 1) * 10 ^ cs.length ≤
          (acc + 1) * 10 ^ (cs.length + 1) := by
        have hh : acc * 10 + d + 1 ≤ (acc + 1) * 10 := by omega
        calc (acc * 10 + d + 1) * 10 ^ cs.length
            ≤ (acc + 1) * 10 * 10 ^ cs.length := Nat.mul_le_mul_right _ hh
          _ = (acc + 1) * 10 ^ (cs.length + 1) := by ring
      exact lt_of_lt_of_le hv (by simpa using hstep)

theorem rustParseUInt_lt (max : Nat) (s : List Char) (v : Nat)
    (h : rustParseUInt max s = some v) : v < 10 ^ s.length := by
  cases s with
  | nil => simp [rustParseUInt] at h
  | cons c cs =>
    simp only [rustParseUInt] at h
    by_cases hp : c = '+'
    · rw [if_pos hp] at h
      by_cases hnil : cs = []
      · rw [if_pos hnil] at h; cases h
      · rw [if_neg hnil] at h
        have hb := parseDigits_lt max cs 0 v h
        simp only [Nat.zero_add, Nat.one_mul] at hb
        calc v < 10 ^ cs.length := hb
          _ ≤ 10 ^ (c :: cs).length := by
            exact Nat.pow_le_pow_right (by norm_num) (by simp)
    · rw [if_neg hp] at h
      have hb := parseDigits_lt max (c :: cs) 0 v h
      simpa using hb

/-- A year field occupying exactly four bytes parses to a value below
10000: parsed characters are single-byte, so there are at most four of
them. -/
theorem parse_year_lt (ys : List Char) (y : Nat) (hy : utf8Len ys = 4)
    (h : rustParseUInt 65535 ys = some y) : y < 10000 := by
  have h1 := rustParseUInt_lt 65535 ys y h
  have h2 : ys.length ≤ 4 := hy ▸ length_le_utf8Len ys
  have h3 : (10 : Nat) ^ ys.length ≤ 10 ^ 4 :=
    Nat.pow_le_pow_right (by norm_num) h2
  have h4 : (10 : Nat) ^ 4 = 10000 := by norm_num
  exact lt_of_lt_of_le h1 (h4 ▸ h3)

/-! ### Month-table lemmas -/

theorem offset_of_first_half (m : List Char) (h : m ∈ monthsFirstHalf) :
    get_month_offset m = some 0 := by
  simp only [monthsFirstHalf, List.mem_cons, List.not_mem_nil, or_false] at h
  rcases h with h | h | h | h | h | h <;> subst h <;> decide

theorem offset_of_second_half (m : List Char) (h : m ∈ monthsSecondHalf) :
    get_month_offset m = some 1 := by
  simp only [monthsSecondHalf, List.mem_cons, List.not_mem_nil, or_false] at h
  rcases h with h | h | h | h | h | h <;> subst h <;> decide

theorem offset_none_of_unknown (m : List Char)
    (h1 : m ∉ monthsFirstHalf) (h2 : m ∉ monthsSecondHalf) :
    get_month_offset m = none := by
  simp only [monthsFirstHalf, List.mem_cons, List.not_mem_nil, or_false,
    not_or] at h1
  simp only [monthsSecondHalf, List.mem_cons, List.not_mem_nil, or_false,
    not_or] at h2
  obtain ⟨e1, e2, e3, e4, e5, e6⟩ := h1
  obtain ⟨f1, f2, f3, f4, f5, f6⟩ := h2
  simp [get_month_offset, e1, e2, e3, e4, e5, e6, f1, f2, f3, f4, f5, f6]

/-- The month table, characterised through the two halves of the year:
recognised codes of the first half map to offset 0, of the second half
to offset 1, and everything else to the unknown-month error. -/
theorem month_offset_char (m : List Char) :
    get_month_offset m =
      (if m ∈ monthsFirstHalf then some 0
       else if m ∈ monthsSecondHalf then some 1 else none) := by
  unfold get_month_offset
  by_cases h1 : m = ['J', 'A', 'N']
  case pos => subst h1; decide
  rw [if_neg h1]
  by_cases h2 : m = ['F', 'E', 'B']
  case pos => subst h2; decide
  rw [if_neg h2]
  by_cases h3 : m = ['M', 'A', 'R']
  case pos => subst h3; decide
  rw [if_neg h3]
  by_cases h4 : m = ['A', 'P', 'R']
  case pos => subst h4; decide
  rw [if_neg h4]
  by_cases h5 : m = ['M', 'A', 'Y']
  case pos => subst h5; decide
  rw [if_neg h5]
  by_cases h6 : m = ['J', 'U', 'N']
  case pos => subst h6; decide
  rw [if_neg h6]
  by_cases h7 : m = ['J', 'U', 'L']
  case pos => subst h7; decide
  rw [if_neg h7]
  by_cases h8 : m = ['A', 'U', 'G']
  case pos => subst h8; decide
  rw [if_neg h8]
  by_cases h9 : m = ['S', 'E', 'P']
  case pos => subst h9; decide
  rw [if_neg h9]
  by_cases h10 : m = ['O', 'C', 'T']
  case pos => subst h10; decide
  rw [if_neg h10]
  by_cases h11 : m = ['N', 'O', 'V']
  case pos => subst h11; decide
  rw [if_neg h11]
  by_cases h12 : m = ['D', 'E', 'C']
  case pos => subst h12; decide
  rw [if_neg h12]
  have hFH : m ∉ monthsFirstHalf := by
    simp only [monthsFirstHalf, List.mem_cons, List.not_mem_nil, or_false,
      not_or]
    exact ⟨h1, h2, h3, h4, h5, h6⟩
  have hSH : m ∉ monthsSecondHalf := by
    simp only [monthsSecondHalf, List.mem_cons, List.not_mem_nil, or_false,
      not_or]
    exact ⟨h7, h8, h9, h10, h11, h12⟩
  rw [if_neg hFH, if_neg hSH]

theorem offset_le_one (m : List Char) (off : Nat)
    (h : get_month_offset m = some off) : off ≤ 1 := by
  rw [month_offset_char] at h
  split_ifs at h
  · injection h with h; omega
  · injection h with h; omega

/-! ### Dispatch and handler shapes -/

theorem resolve_eq_six (t : List Char) (h : utf8Len t = 6) :
    resolve t = get_fy_fy_year_only t := by
  simp [resolve, h]

theorem resolve_eq_seven (t : List Char) (h : utf8Len t = 7) :
    resolve t = process_month_and_year t := by
  simp [resolve, h]

theorem resolve_eq_nine (t : List Char) (h : utf8Len t = 9) :
    resolve t = get_fy_full_date t := by
  simp [resolve, h]

theorem byteSlice_cat_left (l r : List Char) (b : Nat) (hb : utf8Len l = b) :
    byteSlice (l ++ r) 0 b = some l := by
  subst hb
  rw [byteSlice_zero]
  exact takeBytes_append l r

theorem byteSlice_cat_right (l r : List Char) (a b : Nat)
    (ha : utf8Len l = a) (hb : utf8Len r = b - a) (hab : a ≤ b) :
    byteSlice (l ++ r) a b = some r := by
  rw [byteSlice_append_take l r a b ha hab, ← hb]
  exact takeBytes_self r

theorem fyYearOnly_ok_elim (d : List Char) (n : Nat)
    (h : get_fy_fy_year_only d = .ok n) :
    ∃ pre, byteSlice d 0 4 = some pre ∧ byteSlice d 4 6 = some ['F', 'Y'] ∧
      rustParseUInt 65535 pre = some n := by
  unfold get_fy_fy_year_only at h
  split at h
  · cases h
  · rename_i suf h46
    by_cases hFY : suf = ['F', 'Y']
    · rw [if_pos hFY] at h
      subst hFY
      split at h
      · cases h
      · rename_i pre h04
        split at h
        · rename_i y hp
          injection h with h
          subst h
          exact ⟨pre, h04, h46, hp⟩
        · cases h
    · rw [if_neg hFY] at h
      cases h

theorem processMY_ok_elim (date : List Char) (n : Nat)
    (h : process_month_and_year date = .ok n) :
    ∃ m off ys y, byteSlice date 0 3 = some m ∧
      get_month_offset m = some off ∧ byteSlice date 3 7 = some ys ∧
      rustParseUInt 65535 ys = some y ∧ n = (y + off) % 65536 := by
  unfold process_month_and_year at h
  split at h
  · cases h
  · rename_i m h03
    split at h
    · cases h
    · rename_i off hoff
      split at h
      · cases h
      · rename_i ys h37
        split at h
        · rename_i y hy
          injection h with h
          exact ⟨m, off, ys, y, h03, hoff, h37, hy, h.symm⟩
        · cases h

theorem fullDate_ok_elim (date : List Char) (n : Nat)
    (h : get_fy_full_date date = .ok n) :
    ∃ dd k rest, byteSlice date 0 2 = some dd ∧
      rustParseUInt 255 dd = some k ∧ byteSlice date 2 9 = some rest ∧
      process_month_and_year rest = .ok n := by
  unfold get_fy_full_date at h
  split at h
  · cases h
  · rename_i dd h02
    split at h
    · rename_i k hk
      split at h
      · cases h
      · rename_i rest h29
        exact ⟨dd, k, rest, h02, hk, h29, h⟩
    · cases h

theorem processMY_ok_le (date : List Char) (n : Nat)
    (h : process_month_and_year date = .ok n) : n ≤ 10000 := by
  obtain ⟨m, off, ys, y, h03, hoff, h37, hy, hn⟩ := processMY_ok_elim date n h
  have hys : utf8Len ys = 4 := by
    simpa using utf8Len_of_byteSlice date 3 7 ys h37
  have hylt := parse_year_lt ys y hys hy
  have hole := offset_le_one m off hoff
  have hmod : (y + off) % 65536 = y + off := Nat.mod_eq_of_lt (by omega)
  omega

theorem fyYearOnly_ok_le (d : List Char) (n : Nat)
    (h : get_fy_fy_year_only d = .ok n) : n ≤ 10000 := by
  obtain ⟨pre, h04, h46, hp⟩ := fyYearOnly_ok_elim d n h
  have hpre : utf8Len pre = 4 := by
    simpa using utf8Len_of_byteSlice d 0 4 pre h04
  have := parse_year_lt pre n hpre hp
  omega

/-! ### Claim theorems -/

/-- C1: for every token `<MONTH><YYYY>` (three-byte month code, four-byte
year field), `resolve` returns the year for a first-half month and the
year plus one for a second-half month; a month code outside the twelve
recognised ones fails with `unknownMonth`, and a recognised month with an
unparsable year fails with `invalidYear`. -/
theorem monthYear_resolve_cases (m ys : List Char)
    (hm : utf8Len m = 3) (hy : utf8Len ys = 4) :
    (m ∈ monthsFirstHalf → ∀ y, rustParseUInt 65535 ys = some y →
      resolve (m ++ ys) = .ok y) ∧
    (m ∈ monthsSecondHalf → ∀ y, rustParseUInt 65535 ys = some y →
      resolve (m ++ ys) = .ok (y + 1)) ∧
    (m ∉ monthsFirstHalf → m ∉ monthsSecondHalf →
      resolve (m ++ ys) = .err .unknownMonth) ∧
    ((m ∈ monthsFirstHalf ∨ m ∈ monthsSecondHalf) →
      rustParseUInt 65535 ys = none → resolve (m ++ ys) = .err .invalidYear) := by
  have hlen : utf8Len (m ++ ys) = 7 := by rw [utf8Len_append, hm, hy]
  have h03 : byteSlice (m ++ ys) 0 3 = some m := byteSlice_cat_left m ys 3 hm
  have h37 : byteSlice (m ++ ys) 3 7 = some ys :=
    byteSlice_cat_right m ys 3 7 hm (by omega) (by omega)
  have hdisp := resolve_eq_seven (m ++ ys) hlen
  refine ⟨?_, ?_, ?_, ?_⟩
  · intro hmem y hpar
    have hoff := offset_of_first_half m hmem
    have hylt := parse_year_lt ys y hy hpar
    rw [hdisp]
    simp only [process_month_and_year, h03, hoff, h37, hpar]
    have hmod : (y + 0) % 65536 = y := Nat.mod_eq_of_lt (by omega)
    rw [hmod]
  · intro hmem y hpar
    have hoff := offset_of_second_half m hmem
    have hylt := parse_year_lt ys y hy hpar
    rw [hdisp]
    simp only [process_month_and_year, h03, hoff, h37, hpar]
    have hmod : (y + 1) % 65536 = y + 1 := Nat.mod_eq_of_lt (by omega)
    rw [hmod]
  · intro hn1 hn2
    have hoff := offset_none_of_unknown m hn1 hn2
    rw [hdisp]
    simp only [process_month_and_year, h03, hoff]
  · intro hmem hpar
    rw [hdisp]
    rcases hmem with hmem | hmem
    · have hoff := offset_of_first_half m hmem
      simp only [process_month_and_year, h03, hoff, h37, hpar]
    · have hoff := offset_of_second_half m hmem
      simp only [process_month_and_year, h03, hoff, h37, hpar]

/-- Witness for C1 at the token JAN2022. -/
theorem monthYear_resolve_cases_witness :
    resolve ("JAN".toList ++ "2022".toList) = .ok 2022 :=
  (monthYear_resolve_cases ("JAN".toList) ("2022".toList)
      (by decide) (by decide)).1 (by decide) 2022 (by decide)

/-- C2, counterexample: the length-6 token "aaaéb" (five characters, six
bytes, since 'é' is two bytes) makes `resolve` panic — byte 4 of the
slice `date[4..6]` falls inside 'é' — instead of returning the
`invalidFormat` error the claim promises for every length-6 token that
is not `\d{4}FY`. -/
theorem yearFY_claim_cex :
    utf8Len ("aaaéb".toList) = 6 ∧ resolve ("aaaéb".toList) = .crash ∧
      RResult.crash ≠ RResult.err RErr.invalidFormat := by decide

/-- C2, amended to tokens that split at byte 4 (in particular all ASCII
length-6 tokens): `resolve` returns `ok n` exactly when the last two
bytes are the literal "FY" and the first four parse as an unsigned
integer `n`; failing either condition gives `invalidFormat`. -/
theorem yearFY_resolve_amended (a b : List Char)
    (ha : utf8Len a = 4) (hb : utf8Len b = 2) :
    (∀ n, resolve (a ++ b) = .ok n ↔
      (b = ['F', 'Y'] ∧ rustParseUInt 65535 a = some n)) ∧
    ((b ≠ ['F', 'Y'] ∨ rustParseUInt 65535 a = none) →
      resolve (a ++ b) = .err .invalidFormat) := by
  have hlen : utf8Len (a ++ b) = 6 := by rw [utf8Len_append, ha, hb]
  have h04 : byteSlice (a ++ b) 0 4 = some a := byteSlice_cat_left a b 4 ha
  have h46 : byteSlice (a ++ b) 4 6 = some b :=
    byteSlice_cat_right a b 4 6 ha (by omega) (by omega)
  have hdisp := resolve_eq_six (a ++ b) hlen
  have hexp : get_fy_fy_year_only (a ++ b) =
      (if b = ['F', 'Y'] then
        (match rustParseUInt 65535 a with
         | some year => RResult.ok year
         | none => RResult.err RErr.invalidFormat)
       else RResult.err RErr.invalidFormat) := by
    simp only [get_fy_fy_year_only, h46, h04]
  constructor
  · intro n
    rw [hdisp, hexp]
    by_cases hFY : b = ['F', 'Y']
    · rw [if_pos hFY]
      cases hp : rustParseUInt 65535 a with
      | none => simp [hp, hFY]
      | some y => simp [hp, hFY]
    · rw [if_neg hFY]
      simp [hFY]
  · intro hcond
    rw [hdisp, hexp]
    rcases hcond with hne | hp
    · rw [if_neg hne]
    · by_cases hFY : b = ['F', 'Y']
      · rw [if_pos hFY]
        simp [hp]
      · rw [if_neg hFY]

/-- Witness for the amended C2 at the token 2022FY. -/
theorem yearFY_resolve_amended_witness :
    resolve ("2022".toList ++ "FY".toList) = .ok 2022 :=
  ((yearFY_resolve_amended ("2022".toList) ("FY".toList)
      (by decide) (by decide)).1 2022).mpr (by decide)

/-- C3: on a length-9 token `<DD><MONTH><YYYY>` whose two-byte day field
parses as an integer, `resolve` gives exactly the result of resolving
the length-7 suffix — the day value never influences the outcome. -/
theorem fullDate_delegates (d rest : List Char)
    (hd : utf8Len d = 2) (hr : utf8Len rest = 7)
    (k : Nat) (hk : rustParseUInt 255 d = some k) :
    resolve (d ++ rest) = resolve rest := by
  have hlen : utf8Len (d ++ rest) = 9 := by rw [utf8Len_append, hd, hr]
  have h02 : byteSlice (d ++ rest) 0 2 = some d := byteSlice_cat_left d rest 2 hd
  have h29 : byteSlice (d ++ rest) 2 9 = some rest :=
    byteSlice_cat_right d rest 2 9 hd (by omega) (by omega)
  rw [resolve_eq_nine (d ++ rest) hlen, resolve_eq_seven rest hr]
  simp only [get_fy_full_date, h02, hk, h29]

/-- Witness for C3 at the token 21JAN2021. -/
theorem fullDate_delegates_witness :
    resolve ("21".toList ++ "JAN2021".toList) = resolve ("JAN2021".toList) :=
  fullDate_delegates ("21".toList) ("JAN2021".toList)
    (by decide) (by decide) 21 (by decide)

/-- C4, counterexample: the day field "00" parses to 0, which is not a
positive integer, yet `resolve` accepts the token 00JAN2020 — the day
gate is plain unsigned parsing, not positivity. -/
theorem fullDate_day_zero_cex :
    resolve ("00JAN2020".toList) = .ok 2020 ∧
      rustParseUInt 255 ("00".toList) = some 0 ∧ ¬ 0 < 0 := by decide

/-- C4, amended: on a length-9 token splitting into a two-byte day field
and a seven-byte remainder, a day field that fails unsigned `u8` parsing
makes `resolve` fail with `invalidDay` whatever the remainder holds,
and a day field that parses — to any value, zero or out-of-range values
included — delegates to the month/year handler with the day discarded. -/
theorem fullDate_day_gate (d rest : List Char)
    (hd : utf8Len d = 2) (hr : utf8Len rest = 7) :
    (rustParseUInt 255 d = none → resolve (d ++ rest) = .err .invalidDay) ∧
    (∀ k, rustParseUInt 255 d = some k →
      resolve (d ++ rest) = process_month_and_year rest) := by
  have hlen : utf8Len (d ++ rest) = 9 := by rw [utf8Len_append, hd, hr]
  have h02 : byteSlice (d ++ rest) 0 2 = some d := byteSlice_cat_left d rest 2 hd
  have h29 : byteSlice (d ++ rest) 2 9 = some rest :=
    byteSlice_cat_right d rest 2 9 hd (by omega) (by omega)
  constructor
  · intro hp
    rw [resolve_eq_nine (d ++ rest) hlen]
    simp only [get_fy_full_date, h02, hp]
  · intro k hk
    rw [resolve_eq_nine (d ++ rest) hlen]
    simp only [get_fy_full_date, h02, hk, h29]

/-- Witness for the amended C4 at the token xxJAN2020. -/
theorem fullDate_day_gate_witness :
    resolve ("xx".toList ++ "JAN2020".toList) = .err .invalidDay :=
  (fullDate_day_gate ("xx".toList) ("JAN2020".toList)
      (by decide) (by decide)).1 (by decide)

/-- C5: a token whose byte length is none of 6, 7 and 9 is rejected as
`unrecognizedFormat` whatever its content — the default arm of the
length dispatch, reached before any sub-field is parsed. -/
theorem unrecognized_length_resolve (t : List Char)
    (h6 : utf8Len t ≠ 6) (h7 : utf8Len t ≠ 7) (h9 : utf8Len t ≠ 9) :
    resolve t = .err .unrecognizedFormat := by
  simp [resolve, h6, h7, h9]

/-- Witness for C5 at the token hello. -/
theorem unrecognized_length_resolve_witness :
    resolve ("hello".toList) = .err .unrecognizedFormat :=
  unrecognized_length_resolve ("hello".toList)
    (by decide) (by decide) (by decide)

/-- C7: the resolver can panic. The token "aaéaaa" has byte length 7, so
it is dispatched to the month/year handler, whose slice `date[0..3]`
ends inside the two-byte character 'é' — Rust's byte slicing panics
there, contradicting the spec's promise that the resolver never
panics and always returns a classified error. -/
theorem resolve_crash_on_multibyte :
    utf8Len ("aaéaaa".toList) = 7 ∧ resolve ("aaéaaa".toList) = .crash := by
  decide

/-- C9: the year and day fields go through standard unsigned-integer
parsing, which accepts one leading '+'; tokens outside the documented
all-digit patterns therefore still resolve: "+123FY" to 123, "JAN+999"
to 999, and "+9JAN2020" to 2020. -/
theorem plus_sign_parse_accepted :
    resolve ("+123FY".toList) = .ok 123 ∧
      resolve ("JAN+999".toList) = .ok 999 ∧
      resolve ("+9JAN2020".toList) = .ok 2020 := by decide

/-- C8: a financial year is produced only when the token's length chose
one of the three formats and every sub-field of that format parsed; the
conclusion exhibits the successful parse of each sub-field. -/
theorem ok_requires_full_parse (t : List Char) (n : Nat)
    (h : resolve t = .ok n) :
    (utf8Len t = 6 ∧ ∃ pre, byteSlice t 0 4 = some pre ∧
        byteSlice t 4 6 = some ['F', 'Y'] ∧
        rustParseUInt 65535 pre = some n) ∨
    (utf8Len t = 7 ∧ ∃ m off ys y, byteSlice t 0 3 = some m ∧
        get_month_offset m = some off ∧ byteSlice t 3 7 = some ys ∧
        rustParseUInt 65535 ys = some y ∧ n = (y + off) % 65536) ∨
    (utf8Len t = 9 ∧ ∃ dd k rest, byteSlice t 0 2 = some dd ∧
        rustParseUInt 255 dd = some k ∧ byteSlice t 2 9 = some rest ∧
        ∃ m off ys y, byteSlice rest 0 3 = some m ∧
          get_month_offset m = some off ∧ byteSlice rest 3 7 = some ys ∧
          rustParseUInt 65535 ys = some y ∧ n = (y + off) % 65536) := by
  unfold resolve at h
  split_ifs at h with h6 h7 h9
  · exact Or.inl ⟨h6, fyYearOnly_ok_elim t n h⟩
  · exact Or.inr (Or.inl ⟨h7, processMY_ok_elim t n h⟩)
  · refine Or.inr (Or.inr ⟨h9, ?_⟩)
    obtain ⟨dd, k, rest, h02, hk, h29, hrest⟩ := fullDate_ok_elim t n h
    exact ⟨dd, k, rest, h02, hk, h29, processMY_ok_elim rest n hrest⟩

/-- Witness for C8 at the token 2020FY. -/
theorem ok_requires_full_parse_witness :
    (utf8Len ("2020FY".toList) = 6 ∧
      ∃ pre, byteSlice ("2020FY".toList) 0 4 = some pre ∧
        byteSlice ("2020FY".toList) 4 6 = some ['F', 'Y'] ∧
        rustParseUInt 65535 pre = some 2020) ∨
    (utf8Len ("2020FY".toList) = 7 ∧
      ∃ m off ys y, byteSlice ("2020FY".toList) 0 3 = some m ∧
        get_month_offset m = some off ∧
        byteSlice ("2020FY".toList) 3 7 = some ys ∧
        rustParseUInt 65535 ys = some y ∧ 2020 = (y + off) % 65536) ∨
    (utf8Len ("2020FY".toList) = 9 ∧
      ∃ dd k rest, byteSlice ("2020FY".toList) 0 2 = some dd ∧
        rustParseUInt 255 dd = some k ∧
        byteSlice ("2020FY".toList) 2 9 = some rest ∧
        ∃ m off ys y, byteSlice rest 0 3 = some m ∧
          get_month_offset m = some off ∧ byteSlice rest 3 7 = some ys ∧
          rustParseUInt 65535 ys = some y ∧ 2020 = (y + off) % 65536) :=
  ok_requires_full_parse ("2020FY".toList) 2020 (by decide)

/-- C10: every successfully resolved financial year is at most 10000 —
a four-byte year field parses below 10000 and the month offset is at
most 1, so the `u16` addition cannot wrap. -/
theorem resolved_fy_le_10000 (t : List Char) (n : Nat)
    (h : resolve t = .ok n) : n ≤ 10000 := by
  unfold resolve at h
  split_ifs at h with h6 h7 h9
  · exact fyYearOnly_ok_le t n h
  · exact processMY_ok_le t n h
  · obtain ⟨dd, k, rest, h02, hk, h29, hrest⟩ := fullDate_ok_elim t n h
    exact processMY_ok_le rest n hrest

/-- Witness for C10 at the token JUL9999, which attains the bound. -/
theorem resolved_fy_le_10000_witness :
    resolve ("JUL9999".toList) = .ok 10000 ∧ 10000 ≤ 10000 :=
  ⟨by decide, resolved_fy_le_10000 ("JUL9999".toList) 10000 (by decide)⟩

/-! ### Extractor lemmas -/

theorem splitUnderscore_ne_nil (s : List Char) : splitUnderscore s ≠ [] := by
  cases s with
  | nil => simp [splitUnderscore]
  | cons c rest =>
    simp only [splitUnderscore]
    by_cases hc : c = '_'
    · simp [hc]
    · rw [if_neg hc]
      cases hs : splitUnderscore rest <;> simp

theorem splitUnderscore_no_us (s : List Char) (h : '_' ∉ s) :
    splitUnderscore s = [s] := by
  induction s with
  | nil => rfl
  | cons c rest ih =>
    have hc : c ≠ '_' := fun e => h (by rw [e]; exact List.mem_cons_self _ _)
    have hr : '_' ∉ rest := fun hm => h (List.mem_cons_of_mem c hm)
    simp only [splitUnderscore, if_neg hc, ih hr]

theorem splitUnderscore_cons_us (s : List Char) :
    splitUnderscore ('_' :: s) = [] :: splitUnderscore s := by
  simp [splitUnderscore]

theorem splitUnderscore_cons_ne (c : Char) (s : List Char) (hc : c ≠ '_')
    (p : List Char) (ps : List (List Char))
    (hs : splitUnderscore s = p :: ps) :
    splitUnderscore (c :: s) = (c :: p) :: ps := by
  simp only [splitUnderscore, if_neg hc, hs]

theorem splitUnderscore_two_le (s : List Char) (h : '_' ∈ s) :
    2 ≤ (splitUnderscore s).length := by
  induction s with
  | nil => cases h
  | cons c rest ih =>
    by_cases hc : c = '_'
    · subst hc
      rw [splitUnderscore_cons_us rest, List.length_cons]
      have hpos := List.length_pos.mpr (splitUnderscore_ne_nil rest)
      omega
    · have hr : '_' ∈ rest := by
        rcases List.mem_cons.mp h with he | hm
        · exact absurd he.symm hc
        · exact hm
      have h2 := ih hr
      cases hs : splitUnderscore rest with
      | nil => exact absurd hs (splitUnderscore_ne_nil rest)
      | cons p ps =>
        rw [hs] at h2
        simp only [splitUnderscore, if_neg hc, hs, List.length_cons]
        simpa using h2

theorem takeWhile_append_stop (p : Char → Bool) (xs ys : List Char)
    (h : ∃ x ∈ xs, p x = false) :
    (xs ++ ys).takeWhile p = xs.takeWhile p := by
  induction xs with
  | nil => obtain ⟨x, hx, _⟩ := h; cases hx
  | cons a xs ih =>
    cases hp : p a with
    | false => simp [List.takeWhile_cons, hp]
    | true =>
      have h' : ∃ x ∈ xs, p x = false := by
        obtain ⟨x, hx, hpx⟩ := h
        rcases List.mem_cons.mp hx with rfl | hx'
        · rw [hp] at hpx; cases hpx
        · exact ⟨x, hx', hpx⟩
      simp [List.takeWhile_cons, hp, ih h']

theorem takeWhile_append_one (p : Char → Bool) (xs : List Char) (c : Char)
    (hc : p c = false) : (xs ++ [c]).takeWhile p = xs.takeWhile p := by
  induction xs with
  | nil => simp [List.takeWhile_cons, hc]
  | cons a xs ih =>
    cases hp : p a with
    | false => simp [List.takeWhile_cons, hp]
    | true => simp [List.takeWhile_cons, hp, ih]

theorem afterLast_cons_us (s : List Char) :
    afterLast ('_' :: s) = afterLast s := by
  unfold afterLast
  rw [List.reverse_cons, takeWhile_append_one _ _ _ (by decide)]

theorem afterLast_cons_mem (c : Char) (s : List Char) (h : '_' ∈ s) :
    afterLast (c :: s) = afterLast s := by
  unfold afterLast
  rw [List.reverse_cons,
    takeWhile_append_stop _ _ _ ⟨'_', List.mem_reverse.mpr h, by decide⟩]

theorem afterLast_no_us (s : List Char) (h : '_' ∉ s) : afterLast s = s := by
  unfold afterLast
  have hall : s.reverse.takeWhile notUnderscore = s.reverse := by
    rw [List.takeWhile_eq_self_iff]
    intro x hx
    have hxs : x ∈ s := List.mem_reverse.mp hx
    have : x ≠ '_' := fun e => h (e ▸ hxs)
    simpa [notUnderscore] using this
  rw [hall, List.reverse_reverse]

theorem afterLast_ne_nil (s : List Char) (c : Char)
    (h : s.getLast? = some c) (hc : c ≠ '_') : afterLast s ≠ [] := by
  unfold afterLast
  have hh : s.reverse.head? = some c := by rw [List.head?_reverse]; exact h
  cases hr : s.reverse with
  | nil => rw [hr] at hh; cases hh
  | cons a as =>
    rw [hr] at hh
    simp only [List.head?_cons, Option.some.injEq] at hh
    subst hh
    have hnu : notUnderscore a = true := by simpa [notUnderscore] using hc
    simp [List.takeWhile_cons, hnu]

theorem getLast_splitUnderscore (s : List Char) :
    (splitUnderscore s).getLast? = some (afterLast s) := by
  induction s with
  | nil => rfl
  | cons c s ih =>
    by_cases hc : c = '_'
    · subst hc
      rw [show splitUnderscore ('_' :: s) = [] :: splitUnderscore s from by
        simp [splitUnderscore]]
      rw [afterLast_cons_us]
      cases hs : splitUnderscore s with
      | nil => exact absurd hs (splitUnderscore_ne_nil s)
      | cons p ps =>
        rw [List.getLast?_cons_cons, ← hs, ih]
    · by_cases hm : '_' ∈ s
      · cases hs : splitUnderscore s with
        | nil => exact absurd hs (splitUnderscore_ne_nil s)
        | cons p ps =>
          have hps : ps ≠ [] := by
            have h2 := splitUnderscore_two_le s hm
            rw [hs] at h2
            simp only [List.length_cons] at h2
            intro e
            subst e
            simp at h2
          have hsplit : splitUnderscore (c :: s) = (c :: p) :: ps := by
            simp only [splitUnderscore, if_neg hc, hs]
          rw [hsplit, afterLast_cons_mem c s hm, ← ih, hs]
          cases ps with
          | nil => exact absurd rfl hps
          | cons q qs => rw [List.getLast?_cons_cons, List.getLast?_cons_cons]
      · have hno : '_' ∉ c :: s := by
          intro hmem
          rcases List.mem_cons.mp hmem with he | hmem'
          · exact hc he.symm
          · exact hm hmem'
        rw [splitUnderscore_no_us _ hno, afterLast_no_us _ hno]
        simp

theorem splitUnderscore_dropLast (s : List Char) (h : s.getLast? = some '_') :
    splitUnderscore s = splitUnderscore s.dropLast ++ [[]] := by
  induction s with
  | nil => cases h
  | cons c s ih =>
    cases s with
    | nil =>
      have hc : c = '_' := by simpa using h
      subst hc
      decide
    | cons c2 s2 =>
      have h' : (c2 :: s2).getLast? = some '_' := by
        rw [List.getLast?_cons_cons] at h; exact h
      have ih' := ih h'
      have hdrop : (c :: c2 :: s2).dropLast = c :: (c2 :: s2).dropLast := rfl
      by_cases hc : c = '_'
      · subst hc
        rw [splitUnderscore_cons_us (c2 :: s2), ih', hdrop,
          splitUnderscore_cons_us ((c2 :: s2).dropLast)]
        rfl
      · cases hS : splitUnderscore (c2 :: s2).dropLast with
        | nil => exact absurd hS (splitUnderscore_ne_nil _)
        | cons p ps =>
          have hsplit2 : splitUnderscore (c2 :: s2) = p :: (ps ++ [[]]) := by
            rw [ih', hS]
            rfl
          rw [splitUnderscore_cons_ne c (c2 :: s2) hc p (ps ++ [[]]) hsplit2,
            hdrop, splitUnderscore_cons_ne c ((c2 :: s2).dropLast) hc p ps hS]
          rfl

/-- C6, counterexample: on the stem "a__" the extracted token is the
empty segment left by `split_terminator` (which drops only one trailing
empty piece), not the last non-empty segment "a" the claim describes. -/
theorem extract_last_nonempty_cex :
    extract ("a__".toList) = some [] ∧
      lastNonEmptySeg ("a__".toList) = some ['a'] ∧
      extract ("a__".toList) ≠ lastNonEmptySeg ("a__".toList) := by decide

/-- C6, amended: the empty stem fails with `noToken`; a non-empty stem
always yields a token, namely the suffix after the last underscore once
a single trailing underscore (if any) has been dropped — the
`split_terminator` semantics, under which the token can be empty — and
in particular a stem without underscores is its own token. -/
theorem extract_token_amended :
    get_fy_from_stem [] = .err .noToken ∧
    ∀ stem : List Char, stem ≠ [] →
      extract stem = some (specToken stem) ∧
      ('_' ∉ stem → extract stem = some stem) := by
  constructor
  · decide
  · intro stem hne
    constructor
    · unfold extract split_terminator specToken
      by_cases hend : stem.getLast? = some '_'
      · have hR := splitUnderscore_dropLast stem hend
        rw [hR, List.getLast?_concat, if_pos rfl, List.dropLast_concat,
          getLast_splitUnderscore, if_pos hend]
      · have hG := getLast_splitUnderscore stem
        obtain ⟨c, hc⟩ : ∃ c, stem.getLast? = some c := by
          cases hl : stem.getLast? with
          | none => exact absurd (List.getLast?_eq_none_iff.mp hl) hne
          | some c => exact ⟨c, rfl⟩
        have hcne : c ≠ '_' := fun e => hend (e ▸ hc)
        have hAL := afterLast_ne_nil stem c hc hcne
        have hcond : ¬ (splitUnderscore stem).getLast? = some [] := by
          rw [hG]
          intro e
          injection e with e
          exact hAL e
        rw [if_neg hcond, hG, if_neg hend]
    · intro hnous
      have hsp := splitUnderscore_no_us stem hnous
      unfold extract split_terminator
      rw [hsp]
      have hcond : ¬ ([stem] : List (List Char)).getLast? = some [] := by
        simp [hne]
      rw [if_neg hcond]
      simp

/-- Witness for the amended C6 at the stem a_b. -/
theorem extract_token_amended_witness :
    extract ("a_b".toList) = some (specToken ("a_b".toList)) :=
  (extract_token_amended.2 ("a_b".toList) (by decide)).1

example : resolve ("2020FY".toList) = .ok 2020 := by decide
example : resolve ("JAN2022".toList) = .ok 2022 := by decide
example : resolve ("JUL2022".toList) = .ok 2023 := by decide
example : resolve ("21JAN2021".toList) = .ok 2021 := by decide
example : resolve ("99JAN2020".toList) = .ok 2020 := by decide
example : resolve ("10JUL2022".toList) = .ok 2023 := by decide
example : resolve ("abcdFY".toList) = .err .invalidFormat := by decide
example : resolve ("10NAN2020".toList) = .err .unknownMonth := by decide
example : resolve ("2015fy".toList) = .err .invalidFormat := by decide
example : resolve ("A1JAN2020".toList) = .err .invalidDay := by decide
example : resolve ("text".toList) = .err .unrecognizedFormat := by decide
example : resolve ("+123FY".toList) = .ok 123 := by decide
example : resolve ("JAN+999".toList) = .ok 999 := by decide
example : resolve ("aaaéb".toList) = .crash := by decide
example : resolve ("aaéaaa".toList) = .crash := by decide
example : extract ("text_21JAN2021".toList) = some ("21JAN2021".toList) := by decide
example : extract ("a__".toList) = some [] := by decide
example : extract ("a_".toList) = some ("a".toList) := by decide
example : extract ("".toList) = none := by decide
example : get_fy_from_stem ("text_more_10MAY2020".toList) = .ok 2020 := by decide
